import Mathlib

/-!
Verification development for the `bert.rs` example of the `smelt` repository.

The source program loads a BERT classification model from a safetensors
bundle and runs inference.  We shallowly embed the parts of the program the
claims are about:

* `to_f32` — the byte-to-float view converter (`src/examples/bert.rs`,
  lines 77–95).  Bytes are modelled as natural numbers below 256 and an
  IEEE-754 `f32` value is modelled by its 32-bit little-endian bit pattern
  (a natural number below 2^32); this identification is exact, including
  NaN and Infinity payloads, because the decoding `u32 → f32` is a bijection
  on bit patterns.  The alignment of the underlying pointer is modelled as
  a boolean field of the view, since the address itself is not part of the
  byte data.  A Rust panic / failed assertion is modelled explicitly by the
  `F32Result` type.
* the model assembler (`from_tensors` impls and the `*_from_prefix`
  helpers) — every `.unwrap()` panic is modelled as `Option.none`
  propagation, so `none` means the load aborts and `some` means a fully
  assembled module.  The safetensors bundle is modelled by its lookup
  function `String → Option TensorView`, which is the only operation the
  assembler uses.
* the inference driver's post-processing (`run`, lines 393–402) —
  probabilities are modelled as `FVal` (either a rational value or NaN, the
  one `f32` feature that matters for `partial_cmp`), the label lookup as an
  association list, and the stable `sort_by` as a stable insertion sort in
  the `Option` monad that returns `none` exactly when an executed
  comparison hits the `None.unwrap()` panic.
-/

/-- Little-endian 32-bit word assembled from four bytes, i.e. the bit
pattern `f32::from_le_bytes` decodes. -/
def leWord (b0 b1 b2 b3 : Nat) : Nat :=
  b0 + 256 * (b1 + 256 * (b2 + 256 * b3))

/-- The borrowed (zero-copy) path of `to_f32`: the aligned byte buffer is
reinterpreted as `len / 4` floats, i.e. the first `4 * (len / 4)` bytes are
read in little-endian 4-byte groups (any trailing 1–3 bytes are dropped by
the integer division in `from_raw_parts`). -/
def borrowedPath : List Nat → List Nat
  | b0 :: b1 :: b2 :: b3 :: rest => leWord b0 b1 b2 b3 :: borrowedPath rest
  | _ => []

/-- The copied path of `to_f32`: the `while i < v.len()` loop reading
`v[i] .. v[i+3]` and stepping by 4.  When fewer than four bytes remain but
at least one does, the indexing `v[i + 1]`/`v[i + 2]`/`v[i + 3]` is out of
bounds and the program panics, modelled by `none`. -/
def copiedPath : List Nat → Option (List Nat)
  | [] => some []
  | b0 :: b1 :: b2 :: b3 :: rest =>
      (copiedPath rest).map (fun c => leWord b0 b1 b2 b3 :: c)
  | _ => none

/-- The safetensors dtype enumeration (only the tag matters here). -/
inductive Dtype where
  | BOOL | U8 | I8 | I16 | U16 | F16 | BF16
  | I32 | U32 | F32 | F64 | I64 | U64
  deriving DecidableEq

/-- A tensor view from the bundle: declared dtype, shape, raw bytes, and
whether the start address of the byte span is 4-byte aligned (the address
itself lives outside the data, so we carry the alignment test
`ptr % 4 == 0` as a field). -/
structure TensorView where
  dtype : Dtype
  shape : List Nat
  data : List Nat
  aligned : Bool
  deriving DecidableEq

/-- Outcome of `to_f32`: the dtype assertion can fail, the copying loop can
index out of bounds and panic, or a list of float bit patterns is
produced. -/
inductive F32Result where
  | assertFail
  | indexPanic
  | ok (floats : List Nat)
  deriving DecidableEq

/-- `to_f32` from `src/examples/bert.rs`: assert the dtype is `F32`, then
either reinterpret in place (aligned) or decode byte-by-byte into an owned
buffer (misaligned). -/
def to_f32 (view : TensorView) : F32Result :=
  if view.dtype = Dtype.F32 then
    if view.aligned then
      F32Result.ok (borrowedPath view.data)
    else
      match copiedPath view.data with
      | some c => F32Result.ok c
      | none => F32Result.indexPanic
  else
    F32Result.assertFail

/-- A backend tensor: shape plus float data (bit patterns); `from_cpu` of
the external compute backend is modelled as plain construction. -/
structure Tensor where
  shape : List Nat
  data : List Nat
  deriving DecidableEq

/-- `to_tensor`: convert a view, propagating any panic as `none`. -/
def to_tensor (view : TensorView) : Option Tensor :=
  match to_f32 view with
  | F32Result.ok d => some (Tensor.mk view.shape d)
  | _ => none

/-- The safetensors bundle, modelled by its key-lookup function (the only
operation `from_tensors` uses on it); `SafeTensors::tensor(name)` is `Ok`
exactly when the function returns `some`. -/
def Tensors : Type := String → Option TensorView

/-- `tensors.tensor(name)` — lookup of a named tensor view. -/
def tensor (t : Tensors) (name : String) : Option TensorView := t name

/-- A linear layer holding a weight and a bias tensor. -/
structure Linear where
  weight : Tensor
  bias : Tensor
  deriving DecidableEq

/-- An embedding table. -/
structure Embedding where
  weight : Tensor
  deriving DecidableEq

/-- A layer norm holding weight, bias and epsilon. -/
structure LayerNorm where
  weight : Tensor
  bias : Tensor
  epsilon : ℚ
  deriving DecidableEq

/-- The epsilon constant used by `layer_norm_from_prefix` (`1e-5`). -/
def lnEpsilon : ℚ := 1 / 100000

/-- `linear_from`: build a `Linear` from two views; the two `.unwrap()`
panics on `to_tensor` failures are `none`. -/
def linear_from (weights bias : TensorView) : Option Linear :=
  (to_tensor weights).bind fun tw =>
    (to_tensor bias).map fun tb => Linear.mk tw tb

/-- `linear_from_prefix`: look up `{prefix}.weight` and `{prefix}.bias` and
build a `Linear`; a missing key is an `.unwrap()` panic, i.e. `none`. -/
def linear_from_prefix (p : String) (t : Tensors) : Option Linear :=
  (tensor t (p ++ ".weight")).bind fun w =>
    (tensor t (p ++ ".bias")).bind fun b =>
      linear_from w b

/-- `embedding_from`: build an `Embedding` from a weight view. -/
def embedding_from (weights : TensorView) : Option Embedding :=
  (to_tensor weights).map Embedding.mk

/-- `layer_norm_from_prefix`: try the modern `{prefix}.weight` /
`{prefix}.bias` pair; if that pair is not fully present fall back to the
legacy `{prefix}.gamma` / `{prefix}.beta` pair, whose absence is an
`.unwrap()` panic. -/
def layer_norm_from_prefix (p : String) (t : Tensors) : Option LayerNorm :=
  match tensor t (p ++ ".weight"), tensor t (p ++ ".bias") with
  | some w, some b =>
      (to_tensor w).bind fun tw =>
        (to_tensor b).map fun tb => LayerNorm.mk tw tb lnEpsilon
  | _, _ =>
      (tensor t (p ++ ".gamma")).bind fun w =>
        (to_tensor w).bind fun tw =>
          (tensor t (p ++ ".beta")).bind fun b =>
            (to_tensor b).map fun tb => LayerNorm.mk tw tb lnEpsilon

/-- Self-attention module of one encoder layer. -/
structure BertAttention where
  query : Linear
  key : Linear
  value : Linear
  output : Linear
  output_ln : LayerNorm
  deriving DecidableEq

/-- Feed-forward module of one encoder layer. -/
structure Mlp where
  intermediate : Linear
  output : Linear
  output_ln : LayerNorm
  deriving DecidableEq

/-- One encoder layer: attention plus feed-forward. -/
structure BertLayer where
  attention : BertAttention
  mlp : Mlp
  deriving DecidableEq

/-- The encoder: a list of layers. -/
structure BertEncoder where
  layers : List BertLayer
  deriving DecidableEq

/-- The embeddings module. -/
structure BertEmbeddings where
  input_embeddings : Embedding
  position_embeddings : Embedding
  type_embeddings : Embedding
  layer_norm : LayerNorm
  deriving DecidableEq

/-- Embeddings plus encoder. -/
structure Bert where
  embeddings : BertEmbeddings
  encoder : BertEncoder
  deriving DecidableEq

/-- The pooler module. -/
structure BertPooler where
  pooler : Linear
  deriving DecidableEq

/-- The full classification model. -/
structure BertClassifier where
  bert : Bert
  pooler : BertPooler
  classifier : Linear
  deriving DecidableEq

/-- The naming prefix of encoder layer `i`. -/
def layerPath (i : Nat) : String := "bert.encoder.layer." ++ toString i

/-- `bert_attention_from_tensors`: the four linear projections and the
output layer norm of layer `i`. -/
def bert_attention_from_tensors (i : Nat) (t : Tensors) : Option BertAttention :=
  ( linear_from_prefix (layerPath i ++ ".attention.self.query") t).bind fun query =>
    ( linear_from_prefix (layerPath i ++ ".attention.self.key") t).bind fun key =>
      ( linear_from_prefix (layerPath i ++ ".attention.self.value") t).bind fun value =>
        ( linear_from_prefix (layerPath i ++ ".attention.output.dense") t).bind fun output =>
          ( layer_norm_from_prefix (layerPath i ++ ".attention.output.LayerNorm") t).map
            fun output_ln => BertAttention.mk query key value output output_ln

/-- `bert_mlp_from_tensors`: the feed-forward projections and output layer
norm of layer `i`. -/
def bert_mlp_from_tensors (i : Nat) (t : Tensors) : Option Mlp :=
  ( linear_from_prefix (layerPath i ++ ".intermediate.dense") t).bind fun intermediate =>
    ( linear_from_prefix (layerPath i ++ ".output.dense") t).bind fun output =>
      ( layer_norm_from_prefix (layerPath i ++ ".output.LayerNorm") t).map
        fun output_ln => Mlp.mk intermediate output output_ln

/-- `bert_layer_from_tensors`: one encoder layer at index `i`. -/
def bert_layer_from_tensors (i : Nat) (t : Tensors) : Option BertLayer :=
  (bert_attention_from_tensors i t).bind fun attention =>
    (bert_mlp_from_tensors i t).map fun mlp => BertLayer.mk attention mlp

/-- The `(0..12).map(...).collect()` loop of `BertEncoder::from_tensors`,
building one layer per index in the given order; a panic while building
any layer aborts the whole collection. -/
def buildLayers (t : Tensors) : List Nat → Option (List BertLayer)
  | [] => some []
  | i :: rest =>
      (bert_layer_from_tensors i t).bind fun layer =>
        (buildLayers t rest).map fun others => layer :: others

/-- `BertEncoder::from_tensors`: twelve layers, indices `0..12` ascending. -/
def BertEncoder.from_tensors (t : Tensors) : Option BertEncoder :=
  (buildLayers t (List.range 12)).map BertEncoder.mk

/-- `BertEmbeddings::from_tensors`. -/
def BertEmbeddings.from_tensors (t : Tensors) : Option BertEmbeddings :=
  (tensor t "bert.embeddings.word_embeddings.weight").bind fun wv =>
    (embedding_from wv).bind fun input_embeddings =>
      (tensor t "bert.embeddings.position_embeddings.weight").bind fun pv =>
        (embedding_from pv).bind fun position_embeddings =>
          (tensor t "bert.embeddings.token_type_embeddings.weight").bind fun tv =>
            (embedding_from tv).bind fun type_embeddings =>
              ( layer_norm_from_prefix "bert.embeddings.LayerNorm" t).map fun layer_norm =>
                BertEmbeddings.mk input_embeddings position_embeddings type_embeddings layer_norm

/-- `Bert::from_tensors`: embeddings then encoder. -/
def Bert.from_tensors (t : Tensors) : Option Bert :=
  (BertEmbeddings.from_tensors t).bind fun embeddings =>
    (BertEncoder.from_tensors t).map fun encoder => Bert.mk embeddings encoder

/-- `BertPooler::from_tensors`. -/
def BertPooler.from_tensors (t : Tensors) : Option BertPooler :=
  (tensor t "bert.pooler.dense.weight").bind fun w =>
    (tensor t "bert.pooler.dense.bias").bind fun b =>
      (linear_from w b).map BertPooler.mk

/-- The classification-head key selection inside
`BertClassifier::from_tensors`: the modern `classifier.{weight,bias}` pair
if both keys are present, otherwise the legacy
`cls.seq_relationship.{weight,bias}` pair (whose absence panics). -/
def classifierViews (t : Tensors) : Option (TensorView × TensorView) :=
  match tensor t "classifier.weight", tensor t "classifier.bias" with
  | some w, some b => some (w, b)
  | _, _ =>
      (tensor t "cls.seq_relationship.weight").bind fun w =>
        (tensor t "cls.seq_relationship.bias").map fun b => (w, b)

/-- `BertClassifier::from_tensors`: pooler, then bert, then the
classification head. -/
def BertClassifier.from_tensors (t : Tensors) : Option BertClassifier :=
  (BertPooler.from_tensors t).bind fun pooler =>
    (Bert.from_tensors t).bind fun bert =>
      (classifierViews t).bind fun wb =>
        (linear_from wb.1 wb.2).map fun classifier =>
          BertClassifier.mk bert pooler classifier

/-- A probability value as the driver sees it: a real `f32` value (modelled
as a rational) or a NaN.  Only NaN-ness matters for `partial_cmp`. -/
inductive FVal where
  | nan
  | val (q : ℚ)
  deriving DecidableEq

/-- `f32::partial_cmp`: `None` when either operand is NaN, otherwise the
order of the values. -/
def fcmp : FVal → FVal → Option Ordering
  | FVal.val a, FVal.val b =>
      some (if a < b then Ordering.lt else if a = b then Ordering.eq else Ordering.gt)
  | _, _ => none

/-- The numeric value of a non-NaN `FVal` (0 for NaN; only used under
no-NaN hypotheses). -/
def FVal.q : FVal → ℚ
  | FVal.nan => 0
  | FVal.val q => q

/-- The comparator passed to `sort_by`:
`|a, b| b.1.partial_cmp(&a.1).unwrap()` — compare the second components
(probabilities) reversed, so sorting ascending by it sorts descending by
probability. -/
def cmpPair (a b : String × FVal) : Option Ordering := fcmp b.2 a.2

/-- Stable insertion into an already sorted list, aborting (`none`) when an
executed comparison is undefined — the `unwrap` panic of the sort
comparator. -/
def insertByM {α : Type} (f : α → α → Option Ordering) (a : α) :
    List α → Option (List α)
  | [] => some [a]
  | b :: l =>
      match f a b with
      | none => none
      | some Ordering.gt => (insertByM f a l).map (fun r => b :: r)
      | some _ => some (a :: b :: l)

/-- `slice::sort_by`, modelled as a stable insertion sort that aborts when
the comparator panics on an undefined comparison. -/
def sortByM {α : Type} (f : α → α → Option Ordering) : List α → Option (List α)
  | [] => some []
  | a :: l => (sortByM f l).bind fun r => insertByM f a r

/-- The optional `id2label` map of `Config`, modelled as an association
list (string class index → label). -/
def lookupStr (m : List (String × String)) (k : String) : Option String :=
  (m.find? (fun p => p.1 == k)).map (fun p => p.2)

/-- `get_label` from `src/examples/bert.rs`: `None` when the config has no
map or the map has no entry for index `i`. -/
def get_label (id2label : Option (List (String × String))) (i : Nat) : Option String :=
  id2label.bind fun m => lookupStr m (toString i)

/-- The label of class `i` as `run` computes it:
`get_label(id2label, i).unwrap_or(format!("LABEL_{}", i))`. -/
def labelOf (id2label : Option (List (String × String))) (i : Nat) : String :=
  (get_label id2label i).getD ("LABEL_" ++ toString i)

/-- `.iter().enumerate()` starting at index `i`. -/
def enumerateFrom (i : Nat) : List FVal → List (Nat × FVal)
  | [] => []
  | p :: rest => (i, p) :: enumerateFrom (i + 1) rest

/-- The post-processing of `run` on the probability vector: pair each
probability with its label and sort descending by probability with the
panicking comparator. -/
def rankOutputs (id2label : Option (List (String × String))) (probs : List FVal) :
    Option (List (String × FVal)) :=
  sortByM cmpPair ((enumerateFrom 0 probs).map (fun ip => (labelOf id2label ip.1, ip.2)))

/-- Descending-probability order on output pairs. -/
def DescProb (x y : String × FVal) : Prop := FVal.q y.2 ≤ FVal.q x.2

/-- The two alternative key names for each parameter of a layer norm. -/
def lnSlots (p : String) : List (List String) :=
  [[p ++ ".weight", p ++ ".gamma"], [p ++ ".bias", p ++ ".beta"]]

/-- The (single) key names for the two parameters of a linear layer. -/
def linSlots (p : String) : List (List String) :=
  [[p ++ ".weight"], [p ++ ".bias"]]

/-- The required tensors of encoder layer `i`, each with every name the
assembler can look it up under. -/
def layerSlots (i : Nat) : List (List String) :=
  linSlots (layerPath i ++ ".attention.self.query") ++
    linSlots (layerPath i ++ ".attention.self.key") ++
    linSlots (layerPath i ++ ".attention.self.value") ++
    linSlots (layerPath i ++ ".attention.output.dense") ++
    lnSlots (layerPath i ++ ".attention.output.LayerNorm") ++
    linSlots (layerPath i ++ ".intermediate.dense") ++
    linSlots (layerPath i ++ ".output.dense") ++
    lnSlots (layerPath i ++ ".output.LayerNorm")

/-- Every tensor `BertClassifier::from_tensors` requires, as a list of
slots; a slot lists all names (modern and legacy) under which the assembler
can find that tensor. -/
def requiredSlots : List (List String) :=
  [["bert.embeddings.word_embeddings.weight"],
   ["bert.embeddings.position_embeddings.weight"],
   ["bert.embeddings.token_type_embeddings.weight"]] ++
    lnSlots "bert.embeddings.LayerNorm" ++
    linSlots "bert.pooler.dense" ++
    (List.range 12).flatMap layerSlots ++
    [["classifier.weight", "cls.seq_relationship.weight"],
     ["classifier.bias", "cls.seq_relationship.bias"]]

/-- Recursor for lists taken four elements at a time, matching the case
split of `borrowedPath` and `copiedPath`. -/
def fourInd {P : List Nat → Prop} (h0 : P [])
    (h4 : ∀ b0 b1 b2 b3 rest, P rest → P (b0 :: b1 :: b2 :: b3 :: rest))
    (h1 : ∀ b0, P [b0]) (h2 : ∀ b0 b1, P [b0, b1])
    (h3 : ∀ b0 b1 b2, P [b0, b1, b2]) : ∀ l, P l
  | [] => h0
  | [b0] => h1 b0
  | [b0, b1] => h2 b0 b1
  | [b0, b1, b2] => h3 b0 b1 b2
  | b0 :: b1 :: b2 :: b3 :: rest => h4 b0 b1 b2 b3 rest (fourInd h0 h4 h1 h2 h3 rest)

theorem getD_cons_four (b0 b1 b2 b3 : Nat) (rest : List Nat) (n d : Nat) :
    (b0 :: b1 :: b2 :: b3 :: rest).getD (n + 4) d = rest.getD n d := by
  have e : n + 4 = (((n + 1) + 1) + 1) + 1 := by omega
  rw [e, List.getD_cons_succ, List.getD_cons_succ, List.getD_cons_succ,
    List.getD_cons_succ]

theorem borrowedPath_length : ∀ l : List Nat, (borrowedPath l).length = l.length / 4 := by
  intro l
  induction l using fourInd with
  | h0 => rfl
  | h1 b0 => simp [borrowedPath]
  | h2 b0 b1 => simp [borrowedPath]
  | h3 b0 b1 b2 => simp [borrowedPath]
  | h4 b0 b1 b2 b3 rest ih =>
      simp only [borrowedPath, List.length_cons, ih]
      omega

theorem copiedPath_eq_borrowed (l : List Nat) (h : l.length % 4 = 0) :
    copiedPath l = some (borrowedPath l) := by
  induction l using fourInd with
  | h0 => rfl
  | h1 b0 => simp at h
  | h2 b0 b1 => simp at h
  | h3 b0 b1 b2 => simp at h
  | h4 b0 b1 b2 b3 rest ih =>
      have h' : rest.length % 4 = 0 := by
        simp only [List.length_cons] at h
        omega
      simp only [copiedPath, borrowedPath, ih h', Option.map_some']

theorem copiedPath_none (l : List Nat) (h : l.length % 4 ≠ 0) :
    copiedPath l = none := by
  induction l using fourInd with
  | h0 => simp at h
  | h1 b0 => rfl
  | h2 b0 b1 => rfl
  | h3 b0 b1 b2 => rfl
  | h4 b0 b1 b2 b3 rest ih =>
      have h' : rest.length % 4 ≠ 0 := by
        simp only [List.length_cons] at h
        omega
      simp only [copiedPath, ih h', Option.map_none']

theorem borrowedPath_getD : ∀ l : List Nat, ∀ j : Nat, j < l.length / 4 →
    (borrowedPath l).getD j 0 =
      leWord (l.getD (4 * j) 0) (l.getD (4 * j + 1) 0)
        (l.getD (4 * j + 2) 0) (l.getD (4 * j + 3) 0) := by
  intro l
  induction l using fourInd with
  | h0 =>
      intro j hj
      simp only [List.length_nil] at hj
      omega
  | h1 b0 =>
      intro j hj
      simp only [List.length_cons, List.length_nil] at hj
      omega
  | h2 b0 b1 =>
      intro j hj
      simp only [List.length_cons, List.length_nil] at hj
      omega
  | h3 b0 b1 b2 =>
      intro j hj
      simp only [List.length_cons, List.length_nil] at hj
      omega
  | h4 b0 b1 b2 b3 rest ih =>
      intro j hj
      match j with
      | 0 => rfl
      | Nat.succ j =>
          have hj' : j < rest.length / 4 := by
            simp only [List.length_cons] at hj
            omega
          have e1 : 4 * (j + 1) + 1 = (4 * j + 1) + 4 := by ring
          have e2 : 4 * (j + 1) + 2 = (4 * j + 2) + 4 := by ring
          have e3 : 4 * (j + 1) + 3 = (4 * j + 3) + 4 := by ring
          have e0 : 4 * (j + 1) = 4 * j + 4 := by ring
          rw [e1, e2, e3, e0, getD_cons_four, getD_cons_four, getD_cons_four,
            getD_cons_four]
          simp only [borrowedPath, List.getD_cons_succ]
          exact ih j hj'

/-- Claim C1: for an input byte buffer declared as dtype F32 whose length
is a multiple of 4, `to_f32` yields the same float sequence on the aligned
(borrowed, zero-copy) path and on the misaligned (byte-by-byte copied)
path: both produce `len / 4` floats, each being the little-endian decoding
of its 4-byte group — at the bit-pattern level, so NaN and Infinity
patterns included. -/
theorem claim_C1 (shape data : List Nat) (h : data.length % 4 = 0) :
    ∃ out : List Nat,
      to_f32 (TensorView.mk Dtype.F32 shape data true) = F32Result.ok out ∧
      to_f32 (TensorView.mk Dtype.F32 shape data false) = F32Result.ok out ∧
      out.length = data.length / 4 ∧
      ∀ j : Nat, j < data.length / 4 →
        out.getD j 0 =
          leWord (data.getD (4 * j) 0) (data.getD (4 * j + 1) 0)
            (data.getD (4 * j + 2) 0) (data.getD (4 * j + 3) 0) := by
  refine ⟨borrowedPath data, rfl, ?_, borrowedPath_length data, borrowedPath_getD data⟩
  simp [to_f32, copiedPath_eq_borrowed data h]

/-- Witness for C1, at bytes decoding to `1.0f32` and the quiet-NaN
pattern `0x7FC00000`. -/
theorem claim_C1_witness :
    ∃ out : List Nat,
      to_f32 (TensorView.mk Dtype.F32 [2] [0, 0, 128, 63, 0, 0, 192, 127] true) =
        F32Result.ok out ∧
      to_f32 (TensorView.mk Dtype.F32 [2] [0, 0, 128, 63, 0, 0, 192, 127] false) =
        F32Result.ok out ∧
      out.length = ([0, 0, 128, 63, 0, 0, 192, 127] : List Nat).length / 4 ∧
      ∀ j : Nat, j < ([0, 0, 128, 63, 0, 0, 192, 127] : List Nat).length / 4 →
        out.getD j 0 =
          leWord (([0, 0, 128, 63, 0, 0, 192, 127] : List Nat).getD (4 * j) 0)
            (([0, 0, 128, 63, 0, 0, 192, 127] : List Nat).getD (4 * j + 1) 0)
            (([0, 0, 128, 63, 0, 0, 192, 127] : List Nat).getD (4 * j + 2) 0)
            (([0, 0, 128, 63, 0, 0, 192, 127] : List Nat).getD (4 * j + 3) 0) :=
  claim_C1 [2] [0, 0, 128, 63, 0, 0, 192, 127] (by decide)

/-- Claim C8: `to_f32` asserts the declared dtype is `F32`: with dtype
`F32` the assertion passes and conversion proceeds, with any other dtype
the call aborts on the assertion instead of coercing the bytes. -/
theorem claim_C8 (v : TensorView) :
    (v.dtype = Dtype.F32 → to_f32 v ≠ F32Result.assertFail) ∧
    (v.dtype ≠ Dtype.F32 → to_f32 v = F32Result.assertFail) := by
  constructor
  · intro h
    simp only [to_f32, h, if_true]
    split
    · simp
    · split <;> simp
  · intro h
    simp only [to_f32, h, if_false]

/-- Witness for C8: an `F32` view passes the assertion, an `I64` view with
the same bytes aborts. -/
theorem claim_C8_witness :
    to_f32 (TensorView.mk Dtype.F32 [1] [0, 0, 128, 63] true) ≠ F32Result.assertFail ∧
    to_f32 (TensorView.mk Dtype.I64 [1] [0, 0, 128, 63] true) = F32Result.assertFail :=
  ⟨(claim_C8 (TensorView.mk Dtype.F32 [1] [0, 0, 128, 63] true)).1 (by decide),
   (claim_C8 (TensorView.mk Dtype.I64 [1] [0, 0, 128, 63] true)).2 (by decide)⟩

/-- Claim C9: when the byte length is not a multiple of 4 the two paths of
`to_f32` diverge: the aligned (borrowed) path silently truncates to
`len / 4` floats, while the misaligned (copied) path indexes past the end
of the buffer and aborts. -/
theorem claim_C9 (shape data : List Nat) (h : data.length % 4 ≠ 0) :
    to_f32 (TensorView.mk Dtype.F32 shape data true) =
      F32Result.ok (borrowedPath data) ∧
    (borrowedPath data).length = data.length / 4 ∧
    to_f32 (TensorView.mk Dtype.F32 shape data false) = F32Result.indexPanic := by
  refine ⟨rfl, borrowedPath_length data, ?_⟩
  simp [to_f32, copiedPath_none data h]

/-- Witness for C9, on a 5-byte buffer. -/
theorem claim_C9_witness :
    to_f32 (TensorView.mk Dtype.F32 [1] [0, 0, 128, 63, 9] true) =
      F32Result.ok (borrowedPath [0, 0, 128, 63, 9]) ∧
    (borrowedPath [0, 0, 128, 63, 9]).length = ([0, 0, 128, 63, 9] : List Nat).length / 4 ∧
    to_f32 (TensorView.mk Dtype.F32 [1] [0, 0, 128, 63, 9] false) = F32Result.indexPanic :=
  claim_C9 [1] [0, 0, 128, 63, 9] (by decide)

/-- A concrete 4-byte F32 view (value `1.0f32`) used by witnesses. -/
def vA : TensorView := TensorView.mk Dtype.F32 [1] [0, 0, 128, 63] true

/-- A concrete 4-byte F32 view (value `2.0f32`) used by witnesses. -/
def vB : TensorView := TensorView.mk Dtype.F32 [1] [0, 0, 0, 64] true

/-- A bundle exposing only the modern key pair of the layer norm at
prefix `ln`. -/
def bundleModern : Tensors := fun k =>
  if k = "ln.weight" then some vA else if k = "ln.bias" then some vB else none

/-- A bundle exposing only the legacy key pair of the layer norm at
prefix `ln`, with the same underlying views. -/
def bundleLegacy : Tensors := fun k =>
  if k = "ln.gamma" then some vA else if k = "ln.beta" then some vB else none

/-- The empty bundle: every lookup fails. -/
def bundleEmpty : Tensors := fun _ => none

/-- The full bundle: every lookup succeeds with the same small F32 view. -/
def fullBundle : Tensors := fun _ => some vA

/-- Claim C3: `layer_norm_from_prefix` uses the modern
`{prefix}.weight`/`{prefix}.bias` pair when it is fully present; exactly
otherwise it falls back to the legacy `{prefix}.gamma`/`{prefix}.beta`
pair; a bundle exposing only the legacy pair with the same underlying
views yields an identical `LayerNorm`; and when neither pair is fully
present the load fails. -/
theorem claim_C3 (p : String) (t t1 t2 : Tensors) :
    (∀ w b, tensor t (p ++ ".weight") = some w → tensor t (p ++ ".bias") = some b →
       layer_norm_from_prefix p t =
         (to_tensor w).bind fun tw =>
           (to_tensor b).map fun tb => LayerNorm.mk tw tb lnEpsilon) ∧
    ((tensor t (p ++ ".weight") = none ∨ tensor t (p ++ ".bias") = none) →
       layer_norm_from_prefix p t =
         (tensor t (p ++ ".gamma")).bind fun w =>
           (to_tensor w).bind fun tw =>
             (tensor t (p ++ ".beta")).bind fun b =>
               (to_tensor b).map fun tb => LayerNorm.mk tw tb lnEpsilon) ∧
    (∀ w b, tensor t1 (p ++ ".weight") = some w → tensor t1 (p ++ ".bias") = some b →
       tensor t2 (p ++ ".weight") = none →
       tensor t2 (p ++ ".gamma") = some w → tensor t2 (p ++ ".beta") = some b →
       layer_norm_from_prefix p t1 = layer_norm_from_prefix p t2) ∧
    ((tensor t (p ++ ".weight") = none ∨ tensor t (p ++ ".bias") = none) →
     (tensor t (p ++ ".gamma") = none ∨ tensor t (p ++ ".beta") = none) →
       layer_norm_from_prefix p t = none) := by
  refine ⟨?_, ?_, ?_, ?_⟩
  · intro w b hw hb
    unfold layer_norm_from_prefix
    rw [hw, hb]
  · intro hmiss
    unfold layer_norm_from_prefix
    rcases hmiss with hw | hb
    · rw [hw]
    · rw [hb]
      cases hw : tensor t (p ++ ".weight") <;> rfl
  · intro w b hw1 hb1 hw2 hg2 hbe2
    unfold layer_norm_from_prefix
    rw [hw1, hb1, hw2, hg2, hbe2]
    cases hb2 : tensor t2 (p ++ ".bias") <;> rfl
  · intro hmod hleg
    unfold layer_norm_from_prefix
    have hred : ((tensor t (p ++ ".gamma")).bind fun w =>
        (to_tensor w).bind fun tw =>
          (tensor t (p ++ ".beta")).bind fun b =>
            (to_tensor b).map fun tb => LayerNorm.mk tw tb lnEpsilon) = none := by
      rcases hleg with hg | hbe
      · rw [hg, Option.none_bind]
      · simp only [hbe, Option.none_bind, Option.bind_none]
    rcases hmod with hw | hb
    · rw [hw]
      exact hred
    · rw [hb]
      cases hw : tensor t (p ++ ".weight")
      · exact hred
      · exact hred

/-- Witness for C3: with concrete views, the modern-pair branch is taken
when present, a legacy-only bundle with the same views yields the identical
module, and the empty bundle fails. -/
theorem claim_C3_witness :
    ( layer_norm_from_prefix "ln" bundleModern =
        ((to_tensor vA).bind fun tw =>
          (to_tensor vB).map fun tb => LayerNorm.mk tw tb lnEpsilon)) ∧
    ( layer_norm_from_prefix "ln" bundleModern =
        layer_norm_from_prefix "ln" bundleLegacy) ∧
    ( layer_norm_from_prefix "ln" bundleEmpty = none) :=
  ⟨(claim_C3 "ln" bundleModern bundleModern bundleLegacy).1 vA vB
      (by decide) (by decide),
   (claim_C3 "ln" bundleModern bundleModern bundleLegacy).2.2.1 vA vB
      (by decide) (by decide) (by decide) (by decide) (by decide),
   (claim_C3 "ln" bundleEmpty bundleModern bundleLegacy).2.2.2
      (Or.inl (by decide)) (Or.inl (by decide))⟩

/-- Claim C4: the classification head uses `classifier.weight` /
`classifier.bias` when both are present, otherwise the legacy
`cls.seq_relationship.{weight,bias}` pair; when neither pair is fully
present, `BertClassifier::from_tensors` fails; and a successful assembly
builds the head from the selected pair. -/
theorem claim_C4 (t : Tensors) :
    (∀ w b, tensor t "classifier.weight" = some w →
       tensor t "classifier.bias" = some b → classifierViews t = some (w, b)) ∧
    ((tensor t "classifier.weight" = none ∨ tensor t "classifier.bias" = none) →
       classifierViews t =
         (tensor t "cls.seq_relationship.weight").bind fun w =>
           (tensor t "cls.seq_relationship.bias").map fun b => (w, b)) ∧
    ((tensor t "classifier.weight" = none ∨ tensor t "classifier.bias" = none) →
     (tensor t "cls.seq_relationship.weight" = none ∨
       tensor t "cls.seq_relationship.bias" = none) →
       BertClassifier.from_tensors t = none) ∧
    (∀ m, BertClassifier.from_tensors t = some m →
       ∃ w b, classifierViews t = some (w, b) ∧ linear_from w b = some m.classifier) := by
  have hfall : (tensor t "classifier.weight" = none ∨
      tensor t "classifier.bias" = none) →
      classifierViews t =
        (tensor t "cls.seq_relationship.weight").bind fun w =>
          (tensor t "cls.seq_relationship.bias").map fun b => (w, b) := by
    intro hmiss
    unfold classifierViews
    rcases hmiss with hw | hb
    · rw [hw]
    · rw [hb]
      cases hw : tensor t "classifier.weight" <;> rfl
  refine ⟨?_, hfall, ?_, ?_⟩
  · intro w b hw hb
    unfold classifierViews
    rw [hw, hb]
  · intro hmod hleg
    have hcv : classifierViews t = none := by
      rw [hfall hmod]
      rcases hleg with hw | hb
      · rw [hw, Option.none_bind]
      · simp only [hb, Option.map_none', Option.bind_none]
    unfold BertClassifier.from_tensors
    cases hp : BertPooler.from_tensors t
    · rfl
    · cases hbert : Bert.from_tensors t
      · rfl
      · rw [Option.some_bind, Option.some_bind, hcv, Option.none_bind]
  · intro m hm
    unfold BertClassifier.from_tensors at hm
    rw [Option.bind_eq_some] at hm
    obtain ⟨pooler, -, hm⟩ := hm
    rw [Option.bind_eq_some] at hm
    obtain ⟨bert, -, hm⟩ := hm
    rw [Option.bind_eq_some] at hm
    obtain ⟨wb, hwb, hm⟩ := hm
    rw [Option.map_eq_some'] at hm
    obtain ⟨classifier, hcl, hmk⟩ := hm
    refine ⟨wb.1, wb.2, ?_, ?_⟩
    · rw [hwb]
    · rw [hcl, ← hmk]

/-- Witness for C4: the full bundle selects the modern pair and assembles,
the empty bundle fails. -/
theorem claim_C4_witness :
    classifierViews fullBundle = some (vA, vA) ∧
    BertClassifier.from_tensors bundleEmpty = none ∧
    (∃ m, BertClassifier.from_tensors fullBundle = some m ∧
       ∃ w b, classifierViews fullBundle = some (w, b) ∧
         linear_from w b = some m.classifier) := by
  refine ⟨(claim_C4 fullBundle).1 vA vA (by decide) (by decide),
    (claim_C4 bundleEmpty).2.2.1 (Or.inl (by decide)) (Or.inl (by decide)), ?_⟩
  have h : (BertClassifier.from_tensors fullBundle).isSome = true := by decide
  obtain ⟨m, hm⟩ := Option.isSome_iff_exists.mp h
  exact ⟨m, hm, (claim_C4 fullBundle).2.2.2 m hm⟩

theorem buildLayers_spec {t : Tensors} : ∀ (l : List Nat) (out : List BertLayer),
    buildLayers t l = some out →
    out.length = l.length ∧
      ∀ j : Nat, out[j]? = (l[j]?).bind fun i => bert_layer_from_tensors i t := by
  intro l
  induction l with
  | nil =>
      intro out h
      cases h
      exact ⟨rfl, fun j => by simp⟩
  | cons i rest ih =>
      intro out h
      unfold buildLayers at h
      rw [Option.bind_eq_some] at h
      obtain ⟨layer, hl, h⟩ := h
      rw [Option.map_eq_some'] at h
      obtain ⟨others, ho, rfl⟩ := h
      obtain ⟨hlen, hget⟩ := ih others ho
      refine ⟨by simp [hlen], ?_⟩
      intro j
      match j with
      | 0 => simp [hl]
      | Nat.succ j => simp [hget j]

/-- Claim C5: a successfully assembled encoder has exactly 12 layers, the
`i`-th being the layer built by substituting index `i` into the naming
template, for `i` in `0..12` ascending. -/
theorem claim_C5 (t : Tensors) (enc : BertEncoder)
    (h : BertEncoder.from_tensors t = some enc) :
    enc.layers.length = 12 ∧
    ∀ i : Nat, i < 12 → enc.layers[i]? = bert_layer_from_tensors i t := by
  unfold BertEncoder.from_tensors at h
  rw [Option.map_eq_some'] at h
  obtain ⟨layers, hb, rfl⟩ := h
  obtain ⟨hlen, hget⟩ := buildLayers_spec (List.range 12) layers hb
  refine ⟨by simp [hlen], ?_⟩
  intro i hi
  have hg := hget i
  rw [List.getElem?_range hi] at hg
  simpa using hg

/-- Witness for C5: the full bundle assembles an encoder with 12 layers. -/
theorem claim_C5_witness :
    ∃ enc, BertEncoder.from_tensors fullBundle = some enc ∧
      enc.layers.length = 12 ∧
      ∀ i : Nat, i < 12 →
        enc.layers[i]? = bert_layer_from_tensors i fullBundle := by
  have h : (BertEncoder.from_tensors fullBundle).isSome = true := by decide
  obtain ⟨enc, henc⟩ := Option.isSome_iff_exists.mp h
  exact ⟨enc, henc, claim_C5 fullBundle enc henc⟩

theorem linear_from_prefix_present {p : String} {t : Tensors} {lin : Linear}
    (h : linear_from_prefix p t = some lin) :
    (tensor t (p ++ ".weight")).isSome ∧ (tensor t (p ++ ".bias")).isSome := by
  unfold linear_from_prefix at h
  rw [Option.bind_eq_some] at h
  obtain ⟨w, hw, h⟩ := h
  rw [Option.bind_eq_some] at h
  obtain ⟨b, hb, -⟩ := h
  exact ⟨by simp [hw], by simp [hb]⟩

theorem layer_norm_present {p : String} {t : Tensors} {ln : LayerNorm}
    (h : layer_norm_from_prefix p t = some ln) :
    ((tensor t (p ++ ".weight")).isSome ∧ (tensor t (p ++ ".bias")).isSome) ∨
    ((tensor t (p ++ ".gamma")).isSome ∧ (tensor t (p ++ ".beta")).isSome) := by
  unfold layer_norm_from_prefix at h
  split at h
  next w b hw hb => exact Or.inl ⟨by simp [hw], by simp [hb]⟩
  next =>
    right
    rw [Option.bind_eq_some] at h
    obtain ⟨g, hg, h⟩ := h
    rw [Option.bind_eq_some] at h
    obtain ⟨tg, -, h⟩ := h
    rw [Option.bind_eq_some] at h
    obtain ⟨be, hbe, -⟩ := h
    exact ⟨by simp [hg], by simp [hbe]⟩

theorem classifier_present {t : Tensors} {wb : TensorView × TensorView}
    (h : classifierViews t = some wb) :
    ((tensor t "classifier.weight").isSome ∧ (tensor t "classifier.bias").isSome) ∨
    ((tensor t "cls.seq_relationship.weight").isSome ∧
      (tensor t "cls.seq_relationship.bias").isSome) := by
  unfold classifierViews at h
  split at h
  next w b hw hb => exact Or.inl ⟨by simp [hw], by simp [hb]⟩
  next =>
    right
    rw [Option.bind_eq_some] at h
    obtain ⟨w, hw, h⟩ := h
    rw [Option.map_eq_some'] at h
    obtain ⟨b, hb, -⟩ := h
    exact ⟨by simp [hw], by simp [hb]⟩

theorem pooler_present {t : Tensors} {pl : BertPooler}
    (h : BertPooler.from_tensors t = some pl) :
    (tensor t "bert.pooler.dense.weight").isSome ∧
    (tensor t "bert.pooler.dense.bias").isSome := by
  unfold BertPooler.from_tensors at h
  rw [Option.bind_eq_some] at h
  obtain ⟨w, hw, h⟩ := h
  rw [Option.bind_eq_some] at h
  obtain ⟨b, hb, -⟩ := h
  exact ⟨by simp [hw], by simp [hb]⟩

theorem embeddings_present {t : Tensors} {emb : BertEmbeddings}
    (h : BertEmbeddings.from_tensors t = some emb) :
    (tensor t "bert.embeddings.word_embeddings.weight").isSome ∧
    (tensor t "bert.embeddings.position_embeddings.weight").isSome ∧
    (tensor t "bert.embeddings.token_type_embeddings.weight").isSome ∧
    (((tensor t ("bert.embeddings.LayerNorm" ++ ".weight")).isSome ∧
        (tensor t ("bert.embeddings.LayerNorm" ++ ".bias")).isSome) ∨
     ((tensor t ("bert.embeddings.LayerNorm" ++ ".gamma")).isSome ∧
        (tensor t ("bert.embeddings.LayerNorm" ++ ".beta")).isSome)) := by
  unfold BertEmbeddings.from_tensors at h
  rw [Option.bind_eq_some] at h
  obtain ⟨wv, hwv, h⟩ := h
  rw [Option.bind_eq_some] at h
  obtain ⟨ie, -, h⟩ := h
  rw [Option.bind_eq_some] at h
  obtain ⟨pv, hpv, h⟩ := h
  rw [Option.bind_eq_some] at h
  obtain ⟨pe, -, h⟩ := h
  rw [Option.bind_eq_some] at h
  obtain ⟨tv, htv, h⟩ := h
  rw [Option.bind_eq_some] at h
  obtain ⟨te, -, h⟩ := h
  rw [Option.map_eq_some'] at h
  obtain ⟨ln, hln, -⟩ := h
  exact ⟨by simp [hwv], by simp [hpv], by simp [htv], layer_norm_present hln⟩

theorem layer_slots_covered {t : Tensors} {i : Nat} {layer : BertLayer}
    (h : bert_layer_from_tensors i t = some layer) :
    ∀ s ∈ layerSlots i, ∃ n ∈ s, (tensor t n).isSome := by
  unfold bert_layer_from_tensors at h
  rw [Option.bind_eq_some] at h
  obtain ⟨att, hatt, h⟩ := h
  rw [Option.map_eq_some'] at h
  obtain ⟨mlp, hmlp, -⟩ := h
  unfold bert_attention_from_tensors at hatt
  rw [Option.bind_eq_some] at hatt
  obtain ⟨q, hq, hatt⟩ := hatt
  rw [Option.bind_eq_some] at hatt
  obtain ⟨k, hk, hatt⟩ := hatt
  rw [Option.bind_eq_some] at hatt
  obtain ⟨v, hv, hatt⟩ := hatt
  rw [Option.bind_eq_some] at hatt
  obtain ⟨ao, hao, hatt⟩ := hatt
  rw [Option.map_eq_some'] at hatt
  obtain ⟨aln, haln, -⟩ := hatt
  unfold bert_mlp_from_tensors at hmlp
  rw [Option.bind_eq_some] at hmlp
  obtain ⟨im, him, hmlp⟩ := hmlp
  rw [Option.bind_eq_some] at hmlp
  obtain ⟨od, hod, hmlp⟩ := hmlp
  rw [Option.map_eq_some'] at hmlp
  obtain ⟨oln, holn, -⟩ := hmlp
  obtain ⟨hq1, hq2⟩ := linear_from_prefix_present hq
  obtain ⟨hk1, hk2⟩ := linear_from_prefix_present hk
  obtain ⟨hv1, hv2⟩ := linear_from_prefix_present hv
  obtain ⟨hao1, hao2⟩ := linear_from_prefix_present hao
  have halnp := layer_norm_present haln
  obtain ⟨him1, him2⟩ := linear_from_prefix_present him
  obtain ⟨hod1, hod2⟩ := linear_from_prefix_present hod
  have holnp := layer_norm_present holn
  intro s hs
  simp only [layerSlots, linSlots, lnSlots, List.cons_append, List.nil_append] at hs
  fin_cases hs
  · exact ⟨_, by simp, hq1⟩
  · exact ⟨_, by simp, hq2⟩
  · exact ⟨_, by simp, hk1⟩
  · exact ⟨_, by simp, hk2⟩
  · exact ⟨_, by simp, hv1⟩
  · exact ⟨_, by simp, hv2⟩
  · exact ⟨_, by simp, hao1⟩
  · exact ⟨_, by simp, hao2⟩
  · rcases halnp with ⟨hx, -⟩ | ⟨hx, -⟩
    · exact ⟨_, by simp, hx⟩
    · exact ⟨_, List.mem_cons_of_mem _ (by simp), hx⟩
  · rcases halnp with ⟨-, hx⟩ | ⟨-, hx⟩
    · exact ⟨_, by simp, hx⟩
    · exact ⟨_, List.mem_cons_of_mem _ (by simp), hx⟩
  · exact ⟨_, by simp, him1⟩
  · exact ⟨_, by simp, him2⟩
  · exact ⟨_, by simp, hod1⟩
  · exact ⟨_, by simp, hod2⟩
  · rcases holnp with ⟨hx, -⟩ | ⟨hx, -⟩
    · exact ⟨_, by simp, hx⟩
    · exact ⟨_, List.mem_cons_of_mem _ (by simp), hx⟩
  · rcases holnp with ⟨-, hx⟩ | ⟨-, hx⟩
    · exact ⟨_, by simp, hx⟩
    · exact ⟨_, List.mem_cons_of_mem _ (by simp), hx⟩

theorem from_tensors_present {t : Tensors} {m : BertClassifier}
    (h : BertClassifier.from_tensors t = some m) :
    ∀ s ∈ requiredSlots, ∃ n ∈ s, (tensor t n).isSome := by
  unfold BertClassifier.from_tensors at h
  rw [Option.bind_eq_some] at h
  obtain ⟨pl, hpl, h⟩ := h
  rw [Option.bind_eq_some] at h
  obtain ⟨bert, hbert, h⟩ := h
  rw [Option.bind_eq_some] at h
  obtain ⟨wb, hwb, -⟩ := h
  unfold Bert.from_tensors at hbert
  rw [Option.bind_eq_some] at hbert
  obtain ⟨emb, hemb, hbert⟩ := hbert
  rw [Option.map_eq_some'] at hbert
  obtain ⟨enc, henc, -⟩ := hbert
  unfold BertEncoder.from_tensors at henc
  rw [Option.map_eq_some'] at henc
  obtain ⟨layers, hlayers, -⟩ := henc
  have hlayer : ∀ i : Nat, i < 12 → ∃ layer, bert_layer_from_tensors i t = some layer := by
    intro i hi
    obtain ⟨hlen, hget⟩ := buildLayers_spec (List.range 12) layers hlayers
    have hg := hget i
    rw [List.getElem?_range hi] at hg
    rw [Option.some_bind] at hg
    have hilen : i < layers.length := by
      rw [hlen, List.length_range]
      exact hi
    exact ⟨layers[i], by rw [← hg]; exact List.getElem?_eq_getElem hilen⟩
  obtain ⟨hplw, hplb⟩ := pooler_present hpl
  obtain ⟨hw, hp, hty, hlnalt⟩ := embeddings_present hemb
  have hcls := classifier_present hwb
  intro s hs
  simp only [requiredSlots, List.cons_append, List.nil_append, lnSlots, linSlots,
    List.mem_cons, List.mem_append, List.mem_flatMap, List.mem_range,
    List.not_mem_nil, or_false] at hs
  rcases hs with h' | h' | h' | h' | h' | h' | h' | (hflat | h' | h')
  · exact h' ▸ ⟨_, by simp, hw⟩
  · exact h' ▸ ⟨_, by simp, hp⟩
  · exact h' ▸ ⟨_, by simp, hty⟩
  · subst h'
    rcases hlnalt with ⟨hx, -⟩ | ⟨hx, -⟩
    · exact ⟨_, by simp, hx⟩
    · exact ⟨_, List.mem_cons_of_mem _ (by simp), hx⟩
  · subst h'
    rcases hlnalt with ⟨-, hx⟩ | ⟨-, hx⟩
    · exact ⟨_, by simp, hx⟩
    · exact ⟨_, List.mem_cons_of_mem _ (by simp), hx⟩
  · exact h' ▸ ⟨_, by simp, hplw⟩
  · exact h' ▸ ⟨_, by simp, hplb⟩
  · obtain ⟨i, hi, hsi⟩ := hflat
    obtain ⟨layer, hl⟩ := hlayer i hi
    exact layer_slots_covered hl s hsi
  · subst h'
    rcases hcls with ⟨hx, -⟩ | ⟨hx, -⟩
    · exact ⟨_, by simp, hx⟩
    · exact ⟨_, List.mem_cons_of_mem _ (by simp), hx⟩
  · subst h'
    rcases hcls with ⟨-, hx⟩ | ⟨-, hx⟩
    · exact ⟨_, by simp, hx⟩
    · exact ⟨_, List.mem_cons_of_mem _ (by simp), hx⟩

/-- Claim C2: removing any single required tensor — absent under every
name (modern or legacy) the assembler can look it up by, at any encoder
layer index — makes `BertClassifier::from_tensors` fail; there is no
partially assembled model (`none` is the only failure result). -/
theorem claim_C2 (t : Tensors) (s : List String) (hs : s ∈ requiredSlots)
    (habs : ∀ n ∈ s, tensor t n = none) :
    BertClassifier.from_tensors t = none := by
  cases hres : BertClassifier.from_tensors t with
  | none => rfl
  | some m =>
      exfalso
      obtain ⟨n, hn, hsome⟩ := from_tensors_present hres s hs
      rw [habs n hn] at hsome
      simp at hsome

/-- Witness for C2: the pooler weight is a required slot and the empty
bundle fails to assemble. -/
theorem claim_C2_witness :
    (["bert.pooler.dense.weight"] ∈ requiredSlots ∧
      ∀ n ∈ (["bert.pooler.dense.weight"] : List String),
        tensor bundleEmpty n = none) ∧
    BertClassifier.from_tensors bundleEmpty = none :=
  ⟨⟨by decide, by decide⟩,
   claim_C2 bundleEmpty ["bert.pooler.dense.weight"] (by decide) (by decide)⟩

theorem fcmp_isSome {a b : FVal} (ha : a ≠ FVal.nan) (hb : b ≠ FVal.nan) :
    (fcmp a b).isSome := by
  cases a with
  | nan => exact absurd rfl ha
  | val p =>
      cases b with
      | nan => exact absurd rfl hb
      | val r => simp [fcmp]

theorem fcmp_gt_q {x y : FVal} (hx : x ≠ FVal.nan) (hy : y ≠ FVal.nan)
    (h : fcmp x y = some Ordering.gt) : FVal.q y < FVal.q x := by
  cases x with
  | nan => exact absurd rfl hx
  | val p =>
      cases y with
      | nan => exact absurd rfl hy
      | val r =>
          simp only [fcmp, FVal.q] at h ⊢
          split_ifs at h with h1 h2
          · simp at h
          · simp at h
          · exact lt_of_le_of_ne (le_of_not_lt h1) fun he => h2 he.symm

theorem fcmp_ngt_q {x y : FVal} (hx : x ≠ FVal.nan) (hy : y ≠ FVal.nan)
    (h : fcmp x y ≠ some Ordering.gt) : FVal.q x ≤ FVal.q y := by
  cases x with
  | nan => exact absurd rfl hx
  | val p =>
      cases y with
      | nan => exact absurd rfl hy
      | val r =>
          simp only [fcmp, FVal.q] at h ⊢
          split_ifs at h with h1 h2
          · exact le_of_lt h1
          · exact le_of_eq h2
          · exact absurd rfl h

theorem insertByM_sorted (a : String × FVal) :
    ∀ l : List (String × FVal), a.2 ≠ FVal.nan → (∀ x ∈ l, x.2 ≠ FVal.nan) →
    List.Pairwise DescProb l →
    ∃ r, insertByM cmpPair a l = some r ∧ List.Perm r (a :: l) ∧
      List.Pairwise DescProb r ∧ ∀ x ∈ r, x.2 ≠ FVal.nan := by
  intro l
  induction l with
  | nil =>
      intro ha _ _
      exact ⟨[a], rfl, List.Perm.refl _, by simp, by simp [ha]⟩
  | cons b l' ih =>
      intro ha hl hs
      have hb : b.2 ≠ FVal.nan := hl b (by simp)
      have hl' : ∀ x ∈ l', x.2 ≠ FVal.nan := fun x hx => hl x (by simp [hx])
      rw [List.pairwise_cons] at hs
      obtain ⟨hbl, hs'⟩ := hs
      obtain ⟨o, ho⟩ := Option.isSome_iff_exists.mp (fcmp_isSome hb ha)
      match o with
      | Ordering.lt =>
          refine ⟨a :: b :: l', ?_, List.Perm.refl _, ?_, ?_⟩
          · unfold insertByM
            simp only [cmpPair, ho]
          · have hab : DescProb a b :=
              fcmp_ngt_q hb ha (by rw [ho]; simp)
            rw [List.pairwise_cons]
            refine ⟨?_, by rw [List.pairwise_cons]; exact ⟨hbl, hs'⟩⟩
            intro x hx
            rcases List.mem_cons.mp hx with rfl | hx'
            · exact hab
            · exact le_trans (hbl x hx') hab
          · intro x hx
            rcases List.mem_cons.mp hx with rfl | hx'
            · exact ha
            · exact hl x hx'
      | Ordering.eq =>
          refine ⟨a :: b :: l', ?_, List.Perm.refl _, ?_, ?_⟩
          · unfold insertByM
            simp only [cmpPair, ho]
          · have hab : DescProb a b :=
              fcmp_ngt_q hb ha (by rw [ho]; simp)
            rw [List.pairwise_cons]
            refine ⟨?_, by rw [List.pairwise_cons]; exact ⟨hbl, hs'⟩⟩
            intro x hx
            rcases List.mem_cons.mp hx with rfl | hx'
            · exact hab
            · exact le_trans (hbl x hx') hab
          · intro x hx
            rcases List.mem_cons.mp hx with rfl | hx'
            · exact ha
            · exact hl x hx'
      | Ordering.gt =>
          obtain ⟨r', hr', hperm', hsort', hgood'⟩ := ih ha hl' hs'
          refine ⟨b :: r', ?_, ?_, ?_, ?_⟩
          · unfold insertByM
            simp only [cmpPair, ho, hr', Option.map_some']
          · exact List.Perm.trans (List.Perm.cons b hperm') (List.Perm.swap a b l')
          · rw [List.pairwise_cons]
            refine ⟨?_, hsort'⟩
            intro x hx
            have hx' : x ∈ a :: l' := (hperm'.mem_iff).mp hx
            rcases List.mem_cons.mp hx' with rfl | hxl
            · exact le_of_lt (fcmp_gt_q hb ha ho)
            · exact hbl x hxl
          · intro x hx
            rcases List.mem_cons.mp hx with rfl | hx'
            · exact hb
            · exact hgood' x hx'

theorem sortByM_sorted :
    ∀ l : List (String × FVal), (∀ x ∈ l, x.2 ≠ FVal.nan) →
    ∃ r, sortByM cmpPair l = some r ∧ List.Perm r l ∧ List.Pairwise DescProb r := by
  intro l
  induction l with
  | nil => exact fun _ => ⟨[], rfl, List.Perm.refl _, by simp⟩
  | cons a l' ih =>
      intro hl
      have ha : a.2 ≠ FVal.nan := hl a (by simp)
      have hl' : ∀ x ∈ l', x.2 ≠ FVal.nan := fun x hx => hl x (by simp [hx])
      obtain ⟨r', hr', hperm', hsort'⟩ := ih hl'
      have hgood' : ∀ x ∈ r', x.2 ≠ FVal.nan := fun x hx =>
        hl' x ((hperm'.mem_iff).mp hx)
      obtain ⟨r, hr, hperm, hsort, -⟩ := insertByM_sorted a r' ha hgood' hsort'
      refine ⟨r, ?_, ?_, hsort⟩
      · unfold sortByM
        simp only [hr', Option.some_bind, hr]
      · exact List.Perm.trans hperm (List.Perm.cons a hperm')

theorem enumerateFrom_length : ∀ (i : Nat) (l : List FVal),
    (enumerateFrom i l).length = l.length := by
  intro i l
  induction l generalizing i with
  | nil => rfl
  | cons p rest ih => simp [enumerateFrom, ih]

theorem enumerateFrom_snd_mem : ∀ (i : Nat) (l : List FVal) (ip : Nat × FVal),
    ip ∈ enumerateFrom i l → ip.2 ∈ l := by
  intro i l
  induction l generalizing i with
  | nil => intro ip h; simp [enumerateFrom] at h
  | cons p rest ih =>
      intro ip h
      rcases List.mem_cons.mp h with rfl | h'
      · simp
      · exact List.mem_cons_of_mem _ (ih (i + 1) ip h')

/-- Claim C6: on a NaN-free probability vector the driver outputs one
(label, probability) pair per class (a permutation of the labelled,
enumerated probabilities), sorted descending by probability; the order of
equal probabilities is whatever the stable sort yields and is not
constrained here. -/
theorem claim_C6 (id2label : Option (List (String × String))) (probs : List FVal)
    (h : ∀ p ∈ probs, p ≠ FVal.nan) :
    ∃ out, rankOutputs id2label probs = some out ∧
      List.Perm out
        ((enumerateFrom 0 probs).map fun ip => (labelOf id2label ip.1, ip.2)) ∧
      out.length = probs.length ∧
      List.Pairwise DescProb out := by
  have hg : ∀ x ∈ (enumerateFrom 0 probs).map
      (fun ip => (labelOf id2label ip.1, ip.2)), x.2 ≠ FVal.nan := by
    intro x hx
    rw [List.mem_map] at hx
    obtain ⟨ip, hip, rfl⟩ := hx
    exact h ip.2 (enumerateFrom_snd_mem 0 probs ip hip)
  obtain ⟨r, hr, hperm, hsort⟩ := sortByM_sorted _ hg
  refine ⟨r, hr, hperm, ?_, hsort⟩
  rw [hperm.length_eq, List.length_map, enumerateFrom_length]

/-- Witness for C6 on the probabilities `[2, 5, 1]`. -/
theorem claim_C6_witness :
    ∃ out, rankOutputs (some [("0", "neg"), ("1", "pos"), ("2", "neu")])
        [FVal.val 2, FVal.val 5, FVal.val 1] = some out ∧
      List.Perm out
        ((enumerateFrom 0 [FVal.val 2, FVal.val 5, FVal.val 1]).map fun ip =>
          (labelOf (some [("0", "neg"), ("1", "pos"), ("2", "neu")]) ip.1, ip.2)) ∧
      out.length = ([FVal.val 2, FVal.val 5, FVal.val 1] : List FVal).length ∧
      List.Pairwise DescProb out :=
  claim_C6 (some [("0", "neg"), ("1", "pos"), ("2", "neu")])
    [FVal.val 2, FVal.val 5, FVal.val 1] (by decide)

/-- Claim C7: the label of class `i` comes from the config's
index→label map when it has an entry for `i`, and is the synthesized
placeholder `LABEL_{i}` when the config has no map or no entry. -/
theorem claim_C7 (id2label : Option (List (String × String))) (i : Nat) :
    (id2label = none → labelOf id2label i = "LABEL_" ++ toString i) ∧
    (∀ m lbl, id2label = some m → lookupStr m (toString i) = some lbl →
       labelOf id2label i = lbl) ∧
    (∀ m, id2label = some m → lookupStr m (toString i) = none →
       labelOf id2label i = "LABEL_" ++ toString i) := by
  refine ⟨?_, ?_, ?_⟩
  · intro h
    subst h
    rfl
  · intro m lbl hm hl
    subst hm
    simp [labelOf, get_label, hl]
  · intro m hm hl
    subst hm
    simp [labelOf, get_label, hl]

/-- Witness for C7: a mapped index, an unmapped index, and a missing map. -/
theorem claim_C7_witness :
    labelOf (some [("0", "negative"), ("1", "positive")]) 1 = "positive" ∧
    labelOf (some [("0", "negative")]) 5 = "LABEL_" ++ toString 5 ∧
    labelOf none 3 = "LABEL_" ++ toString 3 :=
  ⟨(claim_C7 (some [("0", "negative"), ("1", "positive")]) 1).2.1
      [("0", "negative"), ("1", "positive")] "positive" rfl (by decide),
   (claim_C7 (some [("0", "negative")]) 5).2.2 [("0", "negative")] rfl (by decide),
   (claim_C7 none 3).1 rfl⟩

/-- Claim C10: the descending sort compares probabilities with
`partial_cmp(...).unwrap()`: on any NaN-free probability vector every
executed comparison is defined and the ranking succeeds, while on a vector
containing a NaN the ranking step can hit an undefined comparison and
abort, as it does on `[NaN, 1.0]`. -/
theorem claim_C10 :
    (∀ (id2label : Option (List (String × String))) (probs : List FVal),
        (∀ p ∈ probs, p ≠ FVal.nan) → (rankOutputs id2label probs).isSome) ∧
    rankOutputs none [FVal.nan, FVal.val 1] = none := by
  constructor
  · intro id2label probs h
    have hg : ∀ x ∈ (enumerateFrom 0 probs).map
        (fun ip => (labelOf id2label ip.1, ip.2)), x.2 ≠ FVal.nan := by
      intro x hx
      rw [List.mem_map] at hx
      obtain ⟨ip, hip, rfl⟩ := hx
      exact h ip.2 (enumerateFrom_snd_mem 0 probs ip hip)
    obtain ⟨r, hr, -, -⟩ := sortByM_sorted _ hg
    unfold rankOutputs
    rw [hr]
    rfl
  · rfl

/-- Witness for C10's universally quantified part, on `[1, 2]`. -/
theorem claim_C10_witness :
    (∀ p ∈ ([FVal.val 1, FVal.val 2] : List FVal), p ≠ FVal.nan) ∧
    (rankOutputs none [FVal.val 1, FVal.val 2]).isSome :=
  ⟨by decide, claim_C10.1 none [FVal.val 1, FVal.val 2] (by decide)⟩
